import Mathlib

/-!
Verification of the computational core of `grids-on-the-complex-plane`.

The Python sources are embedded shallowly:
* `complex_grid.py` — grid geometry over exact rationals (`ℚ` models the
  float coordinates; `numpy.linspace`, `numpy.ones`, `numpy.flip` and
  `numpy.append` become list operations);
* `special_functions.py` — the binomial/eta/zeta coefficient pipeline over
  `ℚ` and the evaluation paths over `ℂ` (Python's complex `**` on a positive
  real base is `Complex.cpow`);
* `functions.py` — sympy expression trees as an inductive type with
  canonically ordered n-ary sums/products, plus the `multiplies_var`
  heuristic and the `FunctionZtoZ` construction/mutation state.
-/

namespace ComplexGraph

/-! ## `numpy` primitives used by `complex_grid.py`

`np.linspace a b n` returns `n` evenly spaced samples `a + (b-a)*i/(n-1)`,
including both endpoints (for `n = 1` it returns `[a]`, which the formula
also gives since `ℚ` division by zero is zero). `np.ones n` is a list of
ones. -/

def linspace (a b : ℚ) (n : ℕ) : List ℚ :=
  (List.range n).map fun i : ℕ => a + (b - a) * (i : ℚ) / ((n : ℚ) - 1)

def onesQ (n : ℕ) : List ℚ :=
  List.replicate n 1

/-! ## `_horizontal_grid_array`

Direct translation of the loop body of `_horizontal_grid_array`: state is
`(x, y, offset_from_centre)`; iteration `i` appends the `i`-th horizontal
line (forward for even `i`, flipped for odd `i`) and then the vertical
connector at `offset_from_centre + centre`, finally flipping the sign of
`offset_from_centre`.  After the loop one extra forward line at height
`grid_spacing*n_lines + y0` is appended. -/

def hgaStep (x0 y0 w h : ℚ) (npl nl : ℕ) (st : List ℚ × List ℚ × ℚ)
    (i : ℕ) : List ℚ × List ℚ × ℚ :=
  let xH := linspace x0 (x0 + w) npl
  let yH := onesQ npl
  let xV := onesQ (npl / nl)
  let yV := linspace 0 (h / (nl : ℚ)) (npl / nl)
  let centre := w / 2 + x0
  let gs := h / (nl : ℚ)
  let x1 := st.1 ++ (if i % 2 = 0 then xH else xH.reverse)
  let y1 := st.2.1 ++ (if i % 2 = 0 then yH.map fun t => t * (gs * (i : ℚ) + y0)
      else yH.reverse.map fun t => t * (gs * (i : ℚ) + y0))
  let x2 := x1 ++ xV.map fun t => t * (st.2.2 + centre)
  let y2 := y1 ++ yV.map fun t => t + (gs * (i : ℚ) + y0)
  (x2, y2, st.2.2 * (-1))

def hgaLoop (x0 y0 w h : ℚ) (npl nl : ℕ) : ℕ → List ℚ × List ℚ × ℚ
  | 0 => ([], [], w / 2)
  | k + 1 => hgaStep x0 y0 w h npl nl (hgaLoop x0 y0 w h npl nl k) k

def horizontal_grid_array (x0 y0 w h : ℚ) (npl nl : ℕ) :
    List ℚ × List ℚ :=
  let st := hgaLoop x0 y0 w h npl nl nl
  (st.1 ++ linspace x0 (x0 + w) npl,
   st.2.1 ++ (onesQ npl).map fun t => t * (h / (nl : ℚ) * (nl : ℚ) + y0))

/-! ## `_vertical_grid_array` (same algorithm, axes swapped) -/

def vgaStep (x0 y0 w h : ℚ) (npl nl : ℕ) (st : List ℚ × List ℚ × ℚ)
    (i : ℕ) : List ℚ × List ℚ × ℚ :=
  let xV := onesQ npl
  let yV := linspace y0 (y0 + h) npl
  let xH := linspace 0 (w / (nl : ℚ)) (npl / nl)
  let yH := onesQ (npl / nl)
  let centre := h / 2 + y0
  let gs := w / (nl : ℚ)
  let x1 := st.1 ++ (if i % 2 = 0 then xV.map fun t => t * (gs * (i : ℚ) + x0)
      else xV.reverse.map fun t => t * (gs * (i : ℚ) + x0))
  let y1 := st.2.1 ++ (if i % 2 = 0 then yV else yV.reverse)
  let y2 := y1 ++ yH.map fun t => t * (st.2.2 + centre)
  let x2 := x1 ++ xH.map fun t => t + (gs * (i : ℚ) + x0)
  (x2, y2, st.2.2 * (-1))

def vgaLoop (x0 y0 w h : ℚ) (npl nl : ℕ) : ℕ → List ℚ × List ℚ × ℚ
  | 0 => ([], [], h / 2)
  | k + 1 => vgaStep x0 y0 w h npl nl (vgaLoop x0 y0 w h npl nl k) k

def vertical_grid_array (x0 y0 w h : ℚ) (npl nl : ℕ) :
    List ℚ × List ℚ :=
  let st := vgaLoop x0 y0 w h npl nl nl
  (st.1 ++ (onesQ npl).map fun t => t * (w / (nl : ℚ) * (nl : ℚ) + x0),
   st.2.1 ++ linspace y0 (y0 + h) npl)

/-! ### Basic lemmas about the primitives -/

theorem linspace_length (a b : ℚ) (n : ℕ) : (linspace a b n).length = n := by
  rw [linspace, List.length_map, List.length_range]

theorem onesQ_length (n : ℕ) : (onesQ n).length = n := by
  simp [onesQ]

theorem onesQ_mem {n : ℕ} {q : ℚ} (h : q ∈ onesQ n) : q = 1 := by
  simpa [onesQ] using List.eq_of_mem_replicate h

theorem ratio_mem_unit {i n : ℕ} (hi : i < n) :
    0 ≤ (i : ℚ) / ((n : ℚ) - 1) ∧ (i : ℚ) / ((n : ℚ) - 1) ≤ 1 := by
  rcases n with _ | m
  · omega
  · rcases m with _ | m
    · interval_cases i
      norm_num
    · have hd : (0 : ℚ) < ((m + 2 : ℕ) : ℚ) - 1 := by
        push_cast; linarith
      constructor
      · positivity
      · rw [div_le_one hd]
        have : (i : ℚ) ≤ ((m + 1 : ℕ) : ℚ) := by
          exact_mod_cast Nat.le_of_lt_succ hi
        push_cast at this ⊢
        linarith

theorem linspace_mem_bounds {a b : ℚ} (hab : a ≤ b) {n : ℕ} {q : ℚ}
    (hq : q ∈ linspace a b n) : a ≤ q ∧ q ≤ b := by
  rw [linspace] at hq
  rcases List.mem_map.1 hq with ⟨i, hi, rfl⟩
  rw [List.mem_range] at hi
  obtain ⟨h0, h1⟩ := ratio_mem_unit hi
  have hba : (0 : ℚ) ≤ b - a := by linarith
  rw [mul_div_assoc]
  constructor
  · nlinarith
  · nlinarith

theorem hgaStep_def (x0 y0 w h : ℚ) (npl nl : ℕ) (st : List ℚ × List ℚ × ℚ)
    (i : ℕ) :
    hgaStep x0 y0 w h npl nl st i =
      ((st.1 ++ (if i % 2 = 0 then linspace x0 (x0 + w) npl
            else (linspace x0 (x0 + w) npl).reverse)) ++
          (onesQ (npl / nl)).map (fun t => t * (st.2.2 + (w / 2 + x0))),
        (st.2.1 ++ (if i % 2 = 0 then
              (onesQ npl).map (fun t => t * (h / (nl : ℚ) * (i : ℚ) + y0))
            else
              (onesQ npl).reverse.map
                (fun t => t * (h / (nl : ℚ) * (i : ℚ) + y0)))) ++
          (linspace 0 (h / (nl : ℚ)) (npl / nl)).map
            (fun t => t + (h / (nl : ℚ) * (i : ℚ) + y0)),
        st.2.2 * (-1)) := rfl

theorem vgaStep_def (x0 y0 w h : ℚ) (npl nl : ℕ) (st : List ℚ × List ℚ × ℚ)
    (i : ℕ) :
    vgaStep x0 y0 w h npl nl st i =
      ((st.1 ++ (if i % 2 = 0 then
              (onesQ npl).map (fun t => t * (w / (nl : ℚ) * (i : ℚ) + x0))
            else
              (onesQ npl).reverse.map
                (fun t => t * (w / (nl : ℚ) * (i : ℚ) + x0)))) ++
          (linspace 0 (w / (nl : ℚ)) (npl / nl)).map
            (fun t => t + (w / (nl : ℚ) * (i : ℚ) + x0)),
        (st.2.1 ++ (if i % 2 = 0 then linspace y0 (y0 + h) npl
            else (linspace y0 (y0 + h) npl).reverse)) ++
          (onesQ (npl / nl)).map (fun t => t * (st.2.2 + (h / 2 + y0))),
        st.2.2 * (-1)) := rfl

theorem hgaLoop_succ (x0 y0 w h : ℚ) (npl nl k : ℕ) :
    hgaLoop x0 y0 w h npl nl (k + 1) =
      hgaStep x0 y0 w h npl nl (hgaLoop x0 y0 w h npl nl k) k := rfl

theorem vgaLoop_succ (x0 y0 w h : ℚ) (npl nl k : ℕ) :
    vgaLoop x0 y0 w h npl nl (k + 1) =
      vgaStep x0 y0 w h npl nl (vgaLoop x0 y0 w h npl nl k) k := rfl

theorem hgaLoop_length (x0 y0 w h : ℚ) (npl nl : ℕ) : ∀ k,
    (hgaLoop x0 y0 w h npl nl k).1.length =
      (hgaLoop x0 y0 w h npl nl k).2.1.length ∧
    (hgaLoop x0 y0 w h npl nl k).1.length = k * (npl + npl / nl) := by
  intro k
  induction k with
  | zero => exact ⟨rfl, by simp [hgaLoop]⟩
  | succ k ih =>
    rw [hgaLoop_succ, hgaStep_def]
    constructor
    · by_cases hk : k % 2 = 0 <;>
        simp [hk, linspace_length, onesQ_length, ih.1]
    · by_cases hk : k % 2 = 0 <;>
        simp [hk, linspace_length, onesQ_length, ih.2] <;> ring

theorem vgaLoop_length (x0 y0 w h : ℚ) (npl nl : ℕ) : ∀ k,
    (vgaLoop x0 y0 w h npl nl k).1.length =
      (vgaLoop x0 y0 w h npl nl k).2.1.length ∧
    (vgaLoop x0 y0 w h npl nl k).1.length = k * (npl + npl / nl) := by
  intro k
  induction k with
  | zero => exact ⟨rfl, by simp [vgaLoop]⟩
  | succ k ih =>
    rw [vgaLoop_succ, vgaStep_def]
    constructor
    · by_cases hk : k % 2 = 0 <;>
        simp [hk, linspace_length, onesQ_length, ih.1]
    · by_cases hk : k % 2 = 0 <;>
        simp [hk, linspace_length, onesQ_length, ih.2] <;> ring

theorem hgaLoop_bounds (x0 y0 w h : ℚ) (npl nl : ℕ)
    (hw : 0 < w) (hh : 0 < h) (hnl : 1 ≤ nl) : ∀ k, k ≤ nl →
    ((hgaLoop x0 y0 w h npl nl k).2.2 = w / 2 ∨
      (hgaLoop x0 y0 w h npl nl k).2.2 = -(w / 2)) ∧
    (∀ q ∈ (hgaLoop x0 y0 w h npl nl k).1, x0 ≤ q ∧ q ≤ x0 + w) ∧
    (∀ q ∈ (hgaLoop x0 y0 w h npl nl k).2.1, y0 ≤ q ∧ q ≤ y0 + h) := by
  have hnlQ : (0 : ℚ) < (nl : ℚ) := by exact_mod_cast hnl
  have hgs : (0 : ℚ) ≤ h / (nl : ℚ) := div_nonneg hh.le hnlQ.le
  have hcancel : h / (nl : ℚ) * (nl : ℚ) = h := div_mul_cancel₀ h (ne_of_gt hnlQ)
  intro k
  induction k with
  | zero =>
    intro _
    refine ⟨Or.inl rfl, ?_, ?_⟩ <;> intro q hq <;> exact absurd hq (by simp [hgaLoop])
  | succ k ih =>
    intro hk1
    have hk : k ≤ nl := Nat.le_of_succ_le hk1
    obtain ⟨hoff, hx, hy⟩ := ih hk
    have hkQ : (k : ℚ) ≤ (nl : ℚ) := by exact_mod_cast hk
    have hk1Q : (k : ℚ) + 1 ≤ (nl : ℚ) := by exact_mod_cast hk1
    have hline0 : (0 : ℚ) ≤ h / (nl : ℚ) * (k : ℚ) :=
      mul_nonneg hgs (Nat.cast_nonneg k)
    have hlineh : h / (nl : ℚ) * (k : ℚ) ≤ h := by
      calc h / (nl : ℚ) * (k : ℚ) ≤ h / (nl : ℚ) * (nl : ℚ) :=
            mul_le_mul_of_nonneg_left hkQ hgs
        _ = h := hcancel
    have hconnh : h / (nl : ℚ) * (k : ℚ) + h / (nl : ℚ) ≤ h := by
      have h1 : h / (nl : ℚ) * ((k : ℚ) + 1) ≤ h / (nl : ℚ) * (nl : ℚ) :=
        mul_le_mul_of_nonneg_left hk1Q hgs
      have h2 : h / (nl : ℚ) * ((k : ℚ) + 1) =
          h / (nl : ℚ) * (k : ℚ) + h / (nl : ℚ) := by ring
      linarith [hcancel ▸ h1]
    rw [hgaLoop_succ, hgaStep_def]
    refine ⟨?_, ?_, ?_⟩
    · rcases hoff with h1 | h1
      · exact Or.inr (by rw [h1]; ring)
      · exact Or.inl (by rw [h1]; ring)
    · intro q hq
      rcases List.mem_append.1 hq with hq1 | hq1
      · rcases List.mem_append.1 hq1 with hq2 | hq2
        · exact hx q hq2
        · have hq3 : q ∈ linspace x0 (x0 + w) npl := by
            by_cases hkp : k % 2 = 0
            · simpa [hkp] using hq2
            · rw [if_neg hkp, List.mem_reverse] at hq2; exact hq2
          exact linspace_mem_bounds (by linarith) hq3
      · obtain ⟨t, ht, rfl⟩ := List.mem_map.1 hq1
        rw [onesQ_mem ht, one_mul]
        rcases hoff with h1 | h1 <;> rw [h1] <;> constructor <;> linarith
    · intro q hq
      rcases List.mem_append.1 hq with hq1 | hq1
      · rcases List.mem_append.1 hq1 with hq2 | hq2
        · exact hy q hq2
        · have hq3 : q = h / (nl : ℚ) * (k : ℚ) + y0 := by
            by_cases hkp : k % 2 = 0
            · rw [if_pos hkp] at hq2
              obtain ⟨t, ht, rfl⟩ := List.mem_map.1 hq2
              rw [onesQ_mem ht, one_mul]
            · rw [if_neg hkp] at hq2
              obtain ⟨t, ht, rfl⟩ := List.mem_map.1 hq2
              rw [List.mem_reverse] at ht
              rw [onesQ_mem ht, one_mul]
          rw [hq3]
          constructor <;> linarith
      · obtain ⟨t, ht, rfl⟩ := List.mem_map.1 hq1
        obtain ⟨ht0, ht1⟩ := linspace_mem_bounds hgs ht
        constructor <;> linarith

theorem vgaLoop_bounds (x0 y0 w h : ℚ) (npl nl : ℕ)
    (hw : 0 < w) (hh : 0 < h) (hnl : 1 ≤ nl) : ∀ k, k ≤ nl →
    ((vgaLoop x0 y0 w h npl nl k).2.2 = h / 2 ∨
      (vgaLoop x0 y0 w h npl nl k).2.2 = -(h / 2)) ∧
    (∀ q ∈ (vgaLoop x0 y0 w h npl nl k).1, x0 ≤ q ∧ q ≤ x0 + w) ∧
    (∀ q ∈ (vgaLoop x0 y0 w h npl nl k).2.1, y0 ≤ q ∧ q ≤ y0 + h) := by
  have hnlQ : (0 : ℚ) < (nl : ℚ) := by exact_mod_cast hnl
  have hgs : (0 : ℚ) ≤ w / (nl : ℚ) := div_nonneg hw.le hnlQ.le
  have hcancel : w / (nl : ℚ) * (nl : ℚ) = w := div_mul_cancel₀ w (ne_of_gt hnlQ)
  intro k
  induction k with
  | zero =>
    intro _
    refine ⟨Or.inl rfl, ?_, ?_⟩ <;> intro q hq <;> exact absurd hq (by simp [vgaLoop])
  | succ k ih =>
    intro hk1
    have hk : k ≤ nl := Nat.le_of_succ_le hk1
    obtain ⟨hoff, hx, hy⟩ := ih hk
    have hkQ : (k : ℚ) ≤ (nl : ℚ) := by exact_mod_cast hk
    have hk1Q : (k : ℚ) + 1 ≤ (nl : ℚ) := by exact_mod_cast hk1
    have hline0 : (0 : ℚ) ≤ w / (nl : ℚ) * (k : ℚ) :=
      mul_nonneg hgs (Nat.cast_nonneg k)
    have hlineh : w / (nl : ℚ) * (k : ℚ) ≤ w := by
      calc w / (nl : ℚ) * (k : ℚ) ≤ w / (nl : ℚ) * (nl : ℚ) :=
            mul_le_mul_of_nonneg_left hkQ hgs
        _ = w := hcancel
    have hconnh : w / (nl : ℚ) * (k : ℚ) + w / (nl : ℚ) ≤ w := by
      have h1 : w / (nl : ℚ) * ((k : ℚ) + 1) ≤ w / (nl : ℚ) * (nl : ℚ) :=
        mul_le_mul_of_nonneg_left hk1Q hgs
      have h2 : w / (nl : ℚ) * ((k : ℚ) + 1) =
          w / (nl : ℚ) * (k : ℚ) + w / (nl : ℚ) := by ring
      linarith [hcancel ▸ h1]
    rw [vgaLoop_succ, vgaStep_def]
    refine ⟨?_, ?_, ?_⟩
    · rcases hoff with h1 | h1
      · exact Or.inr (by rw [h1]; ring)
      · exact Or.inl (by rw [h1]; ring)
    · intro q hq
      rcases List.mem_append.1 hq with hq1 | hq1
      · rcases List.mem_append.1 hq1 with hq2 | hq2
        · exact hx q hq2
        · have hq3 : q = w / (nl : ℚ) * (k : ℚ) + x0 := by
            by_cases hkp : k % 2 = 0
            · rw [if_pos hkp] at hq2
              obtain ⟨t, ht, rfl⟩ := List.mem_map.1 hq2
              rw [onesQ_mem ht, one_mul]
            · rw [if_neg hkp] at hq2
              obtain ⟨t, ht, rfl⟩ := List.mem_map.1 hq2
              rw [List.mem_reverse] at ht
              rw [onesQ_mem ht, one_mul]
          rw [hq3]
          constructor <;> linarith
      · obtain ⟨t, ht, rfl⟩ := List.mem_map.1 hq1
        obtain ⟨ht0, ht1⟩ := linspace_mem_bounds hgs ht
        constructor <;> linarith
    · intro q hq
      rcases List.mem_append.1 hq with hq1 | hq1
      · rcases List.mem_append.1 hq1 with hq2 | hq2
        · exact hy q hq2
        · have hq3 : q ∈ linspace y0 (y0 + h) npl := by
            by_cases hkp : k % 2 = 0
            · simpa [hkp] using hq2
            · rw [if_neg hkp, List.mem_reverse] at hq2; exact hq2
          exact linspace_mem_bounds (by linarith) hq3
      · obtain ⟨t, ht, rfl⟩ := List.mem_map.1 hq1
        rw [onesQ_mem ht, one_mul]
        rcases hoff with h1 | h1 <;> rw [h1] <;> constructor <;> linarith

theorem hga_def (x0 y0 w h : ℚ) (npl nl : ℕ) :
    horizontal_grid_array x0 y0 w h npl nl =
      ((hgaLoop x0 y0 w h npl nl nl).1 ++ linspace x0 (x0 + w) npl,
       (hgaLoop x0 y0 w h npl nl nl).2.1 ++
         (onesQ npl).map fun t => t * (h / (nl : ℚ) * (nl : ℚ) + y0)) := rfl

theorem vga_def (x0 y0 w h : ℚ) (npl nl : ℕ) :
    vertical_grid_array x0 y0 w h npl nl =
      ((vgaLoop x0 y0 w h npl nl nl).1 ++
         (onesQ npl).map (fun t => t * (w / (nl : ℚ) * (nl : ℚ) + x0)),
       (vgaLoop x0 y0 w h npl nl nl).2.1 ++ linspace y0 (y0 + h) npl) := rfl

/-- C4: for every rectangle with positive width and height, every
`n_points_per_line ≥ 2` and every `n_lines ≥ 1`, each of the two grid
generators returns two arrays of equal, nonzero length, and every
generated coordinate lies within the rectangle's closed bounds
`[x0, x0+w] × [y0, y0+h]`. -/
theorem c4_grid_arrays_in_bounds (x0 y0 w h : ℚ) (npl nl : ℕ)
    (hw : 0 < w) (hh : 0 < h) (hnpl : 2 ≤ npl) (hnl : 1 ≤ nl) :
    ((horizontal_grid_array x0 y0 w h npl nl).1.length =
        (horizontal_grid_array x0 y0 w h npl nl).2.length ∧
      (horizontal_grid_array x0 y0 w h npl nl).1.length ≠ 0 ∧
      (∀ q ∈ (horizontal_grid_array x0 y0 w h npl nl).1,
        x0 ≤ q ∧ q ≤ x0 + w) ∧
      (∀ q ∈ (horizontal_grid_array x0 y0 w h npl nl).2,
        y0 ≤ q ∧ q ≤ y0 + h)) ∧
    ((vertical_grid_array x0 y0 w h npl nl).1.length =
        (vertical_grid_array x0 y0 w h npl nl).2.length ∧
      (vertical_grid_array x0 y0 w h npl nl).1.length ≠ 0 ∧
      (∀ q ∈ (vertical_grid_array x0 y0 w h npl nl).1,
        x0 ≤ q ∧ q ≤ x0 + w) ∧
      (∀ q ∈ (vertical_grid_array x0 y0 w h npl nl).2,
        y0 ≤ q ∧ q ≤ y0 + h)) := by
  have hnlQ : (0 : ℚ) < (nl : ℚ) := by exact_mod_cast hnl
  have hcancelh : h / (nl : ℚ) * (nl : ℚ) = h := div_mul_cancel₀ h (ne_of_gt hnlQ)
  have hcancelw : w / (nl : ℚ) * (nl : ℚ) = w := div_mul_cancel₀ w (ne_of_gt hnlQ)
  constructor
  · obtain ⟨hlen1, hlen2⟩ := hgaLoop_length x0 y0 w h npl nl nl
    obtain ⟨_, hx, hy⟩ := hgaLoop_bounds x0 y0 w h npl nl hw hh hnl nl le_rfl
    rw [hga_def]
    refine ⟨?_, ?_, ?_, ?_⟩
    · simp [linspace_length, onesQ_length, hlen1]
    · simp only [List.length_append, linspace_length]
      omega
    · intro q hq
      rcases List.mem_append.1 hq with hq1 | hq1
      · exact hx q hq1
      · exact linspace_mem_bounds (by linarith) hq1
    · intro q hq
      rcases List.mem_append.1 hq with hq1 | hq1
      · exact hy q hq1
      · obtain ⟨t, ht, rfl⟩ := List.mem_map.1 hq1
        rw [onesQ_mem ht, one_mul, hcancelh]
        constructor <;> linarith
  · obtain ⟨hlen1, hlen2⟩ := vgaLoop_length x0 y0 w h npl nl nl
    obtain ⟨_, hx, hy⟩ := vgaLoop_bounds x0 y0 w h npl nl hw hh hnl nl le_rfl
    rw [vga_def]
    refine ⟨?_, ?_, ?_, ?_⟩
    · simp [linspace_length, onesQ_length, hlen1]
    · simp only [List.length_append, List.length_map, onesQ_length]
      omega
    · intro q hq
      rcases List.mem_append.1 hq with hq1 | hq1
      · exact hx q hq1
      · obtain ⟨t, ht, rfl⟩ := List.mem_map.1 hq1
        rw [onesQ_mem ht, one_mul, hcancelw]
        constructor <;> linarith
    · intro q hq
      rcases List.mem_append.1 hq with hq1 | hq1
      · exact hy q hq1
      · exact linspace_mem_bounds (by linarith) hq1

theorem c4_grid_arrays_in_bounds_witness :
    (0 : ℚ) < 1 ∧ (2 : ℕ) ≤ 2 ∧ (1 : ℕ) ≤ 1 ∧
    (((horizontal_grid_array 0 0 1 1 2 1).1.length =
        (horizontal_grid_array 0 0 1 1 2 1).2.length ∧
      (horizontal_grid_array 0 0 1 1 2 1).1.length ≠ 0 ∧
      (∀ q ∈ (horizontal_grid_array 0 0 1 1 2 1).1,
        (0 : ℚ) ≤ q ∧ q ≤ 0 + 1) ∧
      (∀ q ∈ (horizontal_grid_array 0 0 1 1 2 1).2,
        (0 : ℚ) ≤ q ∧ q ≤ 0 + 1)) ∧
    ((vertical_grid_array 0 0 1 1 2 1).1.length =
        (vertical_grid_array 0 0 1 1 2 1).2.length ∧
      (vertical_grid_array 0 0 1 1 2 1).1.length ≠ 0 ∧
      (∀ q ∈ (vertical_grid_array 0 0 1 1 2 1).1,
        (0 : ℚ) ≤ q ∧ q ≤ 0 + 1) ∧
      (∀ q ∈ (vertical_grid_array 0 0 1 1 2 1).2,
        (0 : ℚ) ≤ q ∧ q ≤ 0 + 1))) :=
  ⟨by norm_num, le_rfl, le_rfl,
    c4_grid_arrays_in_bounds 0 0 1 1 2 1 (by norm_num) (by norm_num) le_rfl le_rfl⟩

/-! ### Serpentine structure (claim C3)

`hgaSegX/hgaSegY` (resp. `vgaSegX/vgaSegY`) give the `i`-th loop-emitted
segment of the horizontal (resp. vertical) family in closed form: the main
line, traversed forward for even `i` and coordinate-reversed for odd `i`,
followed by the perpendicular connector of `npl / nl` samples pinned at
`(-1)^i · (extent/2)` away from the centre of the rectangle, so the
connector alternates between the two ends on successive iterations. -/

def hgaSegX (x0 w : ℚ) (npl nl : ℕ) (i : ℕ) : List ℚ :=
  (if i % 2 = 0 then linspace x0 (x0 + w) npl
    else (linspace x0 (x0 + w) npl).reverse) ++
    (onesQ (npl / nl)).map fun t => t * ((-1 : ℚ) ^ i * (w / 2) + (w / 2 + x0))

def hgaSegY (y0 h : ℚ) (npl nl : ℕ) (i : ℕ) : List ℚ :=
  (if i % 2 = 0 then (onesQ npl).map (fun t => t * (h / (nl : ℚ) * (i : ℚ) + y0))
    else (onesQ npl).reverse.map (fun t => t * (h / (nl : ℚ) * (i : ℚ) + y0))) ++
    (linspace 0 (h / (nl : ℚ)) (npl / nl)).map
      (fun t => t + (h / (nl : ℚ) * (i : ℚ) + y0))

def vgaSegX (x0 w : ℚ) (npl nl : ℕ) (i : ℕ) : List ℚ :=
  (if i % 2 = 0 then (onesQ npl).map (fun t => t * (w / (nl : ℚ) * (i : ℚ) + x0))
    else (onesQ npl).reverse.map (fun t => t * (w / (nl : ℚ) * (i : ℚ) + x0))) ++
    (linspace 0 (w / (nl : ℚ)) (npl / nl)).map
      (fun t => t + (w / (nl : ℚ) * (i : ℚ) + x0))

def vgaSegY (y0 h : ℚ) (npl nl : ℕ) (i : ℕ) : List ℚ :=
  (if i % 2 = 0 then linspace y0 (y0 + h) npl
    else (linspace y0 (y0 + h) npl).reverse) ++
    (onesQ (npl / nl)).map fun t => t * ((-1 : ℚ) ^ i * (h / 2) + (h / 2 + y0))

theorem hgaLoop_closed (x0 y0 w h : ℚ) (npl nl : ℕ) : ∀ k,
    hgaLoop x0 y0 w h npl nl k =
      (((List.range k).map (hgaSegX x0 w npl nl)).flatten,
       ((List.range k).map (hgaSegY y0 h npl nl)).flatten,
       (-1 : ℚ) ^ k * (w / 2)) := by
  intro k
  induction k with
  | zero => simp [hgaLoop]
  | succ k ih =>
    rw [hgaLoop_succ, ih, hgaStep_def]
    refine Prod.ext ?_ (Prod.ext ?_ ?_) <;>
      simp only [List.range_succ, List.map_append, List.flatten_append,
        List.map_cons, List.map_nil, List.flatten_cons, List.flatten_nil,
        List.append_nil, hgaSegX, hgaSegY]
    · rw [List.append_assoc]
    · rw [List.append_assoc]
    · show (-1 : ℚ) ^ k * (w / 2) * (-1) = (-1 : ℚ) ^ (k + 1) * (w / 2)
      rw [pow_succ]
      ring

theorem vgaLoop_closed (x0 y0 w h : ℚ) (npl nl : ℕ) : ∀ k,
    vgaLoop x0 y0 w h npl nl k =
      (((List.range k).map (vgaSegX x0 w npl nl)).flatten,
       ((List.range k).map (vgaSegY y0 h npl nl)).flatten,
       (-1 : ℚ) ^ k * (h / 2)) := by
  intro k
  induction k with
  | zero => simp [vgaLoop]
  | succ k ih =>
    rw [vgaLoop_succ, ih, vgaStep_def]
    refine Prod.ext ?_ (Prod.ext ?_ ?_) <;>
      simp only [List.range_succ, List.map_append, List.flatten_append,
        List.map_cons, List.map_nil, List.flatten_cons, List.flatten_nil,
        List.append_nil, vgaSegX, vgaSegY]
    · rw [List.append_assoc]
    · rw [List.append_assoc]
    · show (-1 : ℚ) ^ k * (h / 2) * (-1) = (-1 : ℚ) ^ (k + 1) * (h / 2)
      rw [pow_succ]
      ring

/-- In the flat `(xs, ys)` arrays, for each of the `nLines` loop
iterations, the last sample of the main line coincides with the first
sample of the following connector, and the last sample of the connector
coincides with the first sample of the next main line. -/
def sharesConnectorPoints (xs ys : List ℚ) (npl cn nLines : ℕ) : Prop :=
  ∀ i < nLines,
    xs.getD (i * (npl + cn) + npl - 1) 0 = xs.getD (i * (npl + cn) + npl) 0 ∧
    ys.getD (i * (npl + cn) + npl - 1) 0 = ys.getD (i * (npl + cn) + npl) 0 ∧
    xs.getD (i * (npl + cn) + npl + cn - 1) 0 =
      xs.getD (i * (npl + cn) + npl + cn) 0 ∧
    ys.getD (i * (npl + cn) + npl + cn - 1) 0 =
      ys.getD (i * (npl + cn) + npl + cn) 0

theorem hga_eval_8_4 :
    horizontal_grid_array 0 0 1 1 8 4 =
      ([0, 1/7, 2/7, 3/7, 4/7, 5/7, 6/7, 1, 1, 1,
        1, 6/7, 5/7, 4/7, 3/7, 2/7, 1/7, 0, 0, 0,
        0, 1/7, 2/7, 3/7, 4/7, 5/7, 6/7, 1, 1, 1,
        1, 6/7, 5/7, 4/7, 3/7, 2/7, 1/7, 0, 0, 0,
        0, 1/7, 2/7, 3/7, 4/7, 5/7, 6/7, 1],
       [0, 0, 0, 0, 0, 0, 0, 0, 0, 1/4,
        1/4, 1/4, 1/4, 1/4, 1/4, 1/4, 1/4, 1/4, 1/4, 1/2,
        1/2, 1/2, 1/2, 1/2, 1/2, 1/2, 1/2, 1/2, 1/2, 3/4,
        3/4, 3/4, 3/4, 3/4, 3/4, 3/4, 3/4, 3/4, 3/4, 1,
        1, 1, 1, 1, 1, 1, 1, 1]) := by
  norm_num [horizontal_grid_array, hgaLoop, hgaStep, linspace, onesQ,
    List.range_succ, List.replicate]

theorem vga_eval_8_4 :
    vertical_grid_array 0 0 1 1 8 4 =
      ([0, 0, 0, 0, 0, 0, 0, 0, 0, 1/4,
        1/4, 1/4, 1/4, 1/4, 1/4, 1/4, 1/4, 1/4, 1/4, 1/2,
        1/2, 1/2, 1/2, 1/2, 1/2, 1/2, 1/2, 1/2, 1/2, 3/4,
        3/4, 3/4, 3/4, 3/4, 3/4, 3/4, 3/4, 3/4, 3/4, 1,
        1, 1, 1, 1, 1, 1, 1, 1],
       [0, 1/7, 2/7, 3/7, 4/7, 5/7, 6/7, 1, 1, 1,
        1, 6/7, 5/7, 4/7, 3/7, 2/7, 1/7, 0, 0, 0,
        0, 1/7, 2/7, 3/7, 4/7, 5/7, 6/7, 1, 1, 1,
        1, 6/7, 5/7, 4/7, 3/7, 2/7, 1/7, 0, 0, 0,
        0, 1/7, 2/7, 3/7, 4/7, 5/7, 6/7, 1]) := by
  norm_num [vertical_grid_array, vgaLoop, vgaStep, linspace, onesQ,
    List.range_succ, List.replicate]

/-- C3 (amended): in each family the loop-emitted line at even index `i` is
forward and at odd index `i` is the coordinate-reverse of its non-flipped
form, each followed (between consecutive lines only — nothing after the
last) by a perpendicular connector pinned `(-1)^i·(extent/2)` away from the
centre, so the connector alternates between the two ends of the rectangle;
the extra line at index `n_lines` appended after the loop is always
forward (so the odd-index-reversal rule extends to it only when `n_lines`
is even); in the documented even case `n_lines = 4, n_points_per_line = 8`
consecutive lines share the adjoining connector points exactly. -/
theorem c3_serpentine_structure :
    (∀ (x0 y0 w h : ℚ) (npl nl : ℕ),
      horizontal_grid_array x0 y0 w h npl nl =
        (((List.range nl).map (hgaSegX x0 w npl nl)).flatten ++
            linspace x0 (x0 + w) npl,
          ((List.range nl).map (hgaSegY y0 h npl nl)).flatten ++
            (onesQ npl).map fun t => t * (h / (nl : ℚ) * (nl : ℚ) + y0))) ∧
    (∀ (x0 y0 w h : ℚ) (npl nl : ℕ),
      vertical_grid_array x0 y0 w h npl nl =
        (((List.range nl).map (vgaSegX x0 w npl nl)).flatten ++
            (onesQ npl).map (fun t => t * (w / (nl : ℚ) * (nl : ℚ) + x0)),
          ((List.range nl).map (vgaSegY y0 h npl nl)).flatten ++
            linspace y0 (y0 + h) npl)) ∧
    sharesConnectorPoints (horizontal_grid_array 0 0 1 1 8 4).1
      (horizontal_grid_array 0 0 1 1 8 4).2 8 2 4 ∧
    sharesConnectorPoints (vertical_grid_array 0 0 1 1 8 4).1
      (vertical_grid_array 0 0 1 1 8 4).2 8 2 4 := by
  refine ⟨?_, ?_, ?_, ?_⟩
  · intro x0 y0 w h npl nl
    rw [hga_def, hgaLoop_closed]
  · intro x0 y0 w h npl nl
    rw [vga_def, vgaLoop_closed]
  · rw [hga_eval_8_4]
    intro i hi
    interval_cases i <;> exact ⟨rfl, rfl, rfl, rfl⟩
  · rw [vga_eval_8_4]
    intro i hi
    interval_cases i <;> exact ⟨rfl, rfl, rfl, rfl⟩

theorem c3_serpentine_structure_witness :
    (0 : ℕ) < 4 ∧
    ((horizontal_grid_array 0 0 1 1 8 4).1.getD 7 0 =
        (horizontal_grid_array 0 0 1 1 8 4).1.getD 8 0 ∧
      (horizontal_grid_array 0 0 1 1 8 4).2.getD 7 0 =
        (horizontal_grid_array 0 0 1 1 8 4).2.getD 8 0 ∧
      (horizontal_grid_array 0 0 1 1 8 4).1.getD 9 0 =
        (horizontal_grid_array 0 0 1 1 8 4).1.getD 10 0 ∧
      (horizontal_grid_array 0 0 1 1 8 4).2.getD 9 0 =
        (horizontal_grid_array 0 0 1 1 8 4).2.getD 10 0) :=
  ⟨by norm_num, by
    have h := c3_serpentine_structure.2.2.1 0 (by norm_num)
    simpa using h⟩

/-- C3 (counterexample to the claim as stated): with `n_lines = 1` (odd) and
`n_points_per_line = 2` on the unit square, the horizontal family consists
of the flat x-array `[0, 1, 1, 1, 0, 1]`; the line at odd index `1` (the
last two samples) is `[0, 1]`, the forward direction, not the
coordinate-reverse `[1, 0]` of its non-flipped form, and it does not adjoin
the preceding connector point: x jumps from `1` to `0` at constant y. -/
theorem c3_counterexample :
    horizontal_grid_array 0 0 1 1 2 1 = ([0, 1, 1, 1, 0, 1], [0, 0, 0, 1, 1, 1]) ∧
    (horizontal_grid_array 0 0 1 1 2 1).1.drop 4 = [0, 1] ∧
    (horizontal_grid_array 0 0 1 1 2 1).1.drop 4 ≠ (linspace 0 (0 + 1) 2).reverse ∧
    (horizontal_grid_array 0 0 1 1 2 1).1.getD 3 0 = 1 ∧
    (horizontal_grid_array 0 0 1 1 2 1).1.getD 4 0 = 0 ∧
    (horizontal_grid_array 0 0 1 1 2 1).2.getD 3 0 =
      (horizontal_grid_array 0 0 1 1 2 1).2.getD 4 0 := by
  have h : horizontal_grid_array 0 0 1 1 2 1 =
      ([0, 1, 1, 1, 0, 1], [0, 0, 0, 1, 1, 1]) := by
    norm_num [horizontal_grid_array, hgaLoop, hgaStep, linspace, onesQ,
      List.range_succ, List.replicate]
  refine ⟨h, ?_, ?_, ?_, ?_, ?_⟩ <;> rw [h]
  · rfl
  · rw [show (linspace 0 (0 + 1) 2).reverse = [1, 0] by
      norm_num [linspace, List.range_succ]]
    simp only [List.drop]
    intro hcontra
    have := List.head_eq_of_cons_eq hcontra
    norm_num at this
  · rfl
  · rfl
  · rfl

/-! ## `ComplexGridArray`

Complex samples are modelled as pairs `(re, im) : ℚ × ℚ`.  The boundary
sequences mirror the source: e.g. `x_min = x0*np.ones(n) + 1j*np.linspace(y0, yf, n)`
becomes a zip of the scaled ones-list with a `linspace`. -/

structure ComplexGridArray where
  horizontal_lines : List (ℚ × ℚ)
  vertical_lines : List (ℚ × ℚ)
  y_max : List (ℚ × ℚ)
  y_min : List (ℚ × ℚ)
  x_min : List (ℚ × ℚ)
  x_max : List (ℚ × ℚ)
  n_vertical_lines : ℕ
  n_horizontal_lines : ℕ

def mkComplexGridArray (x0 y0 xf yf : ℚ) (npts nh nv : ℕ) :
    ComplexGridArray :=
  let w := xf - x0
  let h := yf - y0
  let hg := horizontal_grid_array x0 y0 w h npts nh
  let vg := vertical_grid_array x0 y0 w h npts nv
  { horizontal_lines := hg.1.zip hg.2
    vertical_lines := vg.1.zip vg.2
    y_max := (linspace x0 xf npts).zip ((onesQ npts).map fun t => yf * t)
    y_min := (linspace x0 xf npts).zip ((onesQ npts).map fun t => y0 * t)
    x_min := ((onesQ npts).map fun t => x0 * t).zip (linspace y0 yf npts)
    x_max := ((onesQ npts).map fun t => xf * t).zip (linspace y0 yf npts)
    n_vertical_lines := nv
    n_horizontal_lines := nh }

def ComplexGridArray.get_horizontal_lines (g : ComplexGridArray) :
    List (ℚ × ℚ) := g.horizontal_lines

def ComplexGridArray.get_vertical_lines (g : ComplexGridArray) :
    List (ℚ × ℚ) := g.vertical_lines

def ComplexGridArray.get_boundaries (g : ComplexGridArray) :
    List (List (ℚ × ℚ)) := [g.x_min, g.y_min, g.x_max, g.y_max]

def ComplexGridArray.get_xlim (g : ComplexGridArray) : List ℚ :=
  [(g.x_min.headD (0, 0)).1, (g.x_max.headD (0, 0)).1]

def ComplexGridArray.get_ylim (g : ComplexGridArray) : List ℚ :=
  [(g.y_min.headD (0, 0)).2, (g.y_max.headD (0, 0)).2]

def ComplexGridArray.get_number_of_points_per_line (g : ComplexGridArray) :
    ℕ := g.x_min.length

def ComplexGridArray.get_number_of_vertical_lines (g : ComplexGridArray) :
    ℕ := g.n_vertical_lines

def ComplexGridArray.get_number_of_horizontal_lines (g : ComplexGridArray) :
    ℕ := g.n_horizontal_lines

def ComplexGridArray.get_copy (g : ComplexGridArray) : ComplexGridArray :=
  mkComplexGridArray (g.get_xlim.getD 0 0) (g.get_ylim.getD 0 0)
    (g.get_xlim.getD 1 0) (g.get_ylim.getD 1 0)
    g.x_min.length g.n_horizontal_lines g.n_vertical_lines

theorem headD_zip {l1 l2 : List ℚ} (h1 : l1 ≠ []) (h2 : l2 ≠ []) :
    (l1.zip l2).headD (0, 0) = (l1.headD 0, l2.headD 0) := by
  cases l1 with
  | nil => exact absurd rfl h1
  | cons a t1 =>
    cases l2 with
    | nil => exact absurd rfl h2
    | cons b t2 => rfl

theorem linspace_headD (a b : ℚ) (m : ℕ) :
    (linspace a b (m + 1)).headD 0 = a := by
  rw [linspace, List.range_succ_eq_map]
  simp

theorem linspace_ne_nil (a b : ℚ) (m : ℕ) : linspace a b (m + 1) ≠ [] := by
  intro hcontra
  have := congrArg List.length hcontra
  rw [linspace_length] at this
  simp at this

theorem map_onesQ_ne_nil (c : ℚ) (m : ℕ) :
    ((onesQ (m + 1)).map fun t => c * t) ≠ [] := by
  simp [onesQ]

theorem map_onesQ_headD (c : ℚ) (m : ℕ) :
    (((onesQ (m + 1)).map fun t => c * t).headD 0) = c * 1 := rfl

theorem mk_grid_xlim (x0 y0 xf yf : ℚ) (m nh nv : ℕ) :
    (mkComplexGridArray x0 y0 xf yf (m + 1) nh nv).get_xlim =
      [x0 * 1, xf * 1] := by
  show [((((onesQ (m + 1)).map fun t => x0 * t).zip
      (linspace y0 yf (m + 1))).headD (0, 0)).1,
    ((((onesQ (m + 1)).map fun t => xf * t).zip
      (linspace y0 yf (m + 1))).headD (0, 0)).1] = [x0 * 1, xf * 1]
  rw [headD_zip (map_onesQ_ne_nil x0 m) (linspace_ne_nil y0 yf m),
    headD_zip (map_onesQ_ne_nil xf m) (linspace_ne_nil y0 yf m),
    map_onesQ_headD, map_onesQ_headD]

theorem mk_grid_ylim (x0 y0 xf yf : ℚ) (m nh nv : ℕ) :
    (mkComplexGridArray x0 y0 xf yf (m + 1) nh nv).get_ylim =
      [y0 * 1, yf * 1] := by
  show [(((linspace x0 xf (m + 1)).zip
      ((onesQ (m + 1)).map fun t => y0 * t)).headD (0, 0)).2,
    (((linspace x0 xf (m + 1)).zip
      ((onesQ (m + 1)).map fun t => yf * t)).headD (0, 0)).2] = [y0 * 1, yf * 1]
  rw [headD_zip (linspace_ne_nil x0 xf m) (map_onesQ_ne_nil y0 m),
    headD_zip (linspace_ne_nil x0 xf m) (map_onesQ_ne_nil yf m),
    map_onesQ_headD, map_onesQ_headD]

theorem mk_grid_x_min_length (x0 y0 xf yf : ℚ) (npts nh nv : ℕ) :
    (mkComplexGridArray x0 y0 xf yf npts nh nv).x_min.length = npts := by
  show (((onesQ npts).map fun t => x0 * t).zip
      (linspace y0 yf npts)).length = npts
  rw [List.length_zip, List.length_map, onesQ_length, linspace_length,
    min_self]

theorem mk_grid_get_copy (x0 y0 xf yf : ℚ) (m nh nv : ℕ) :
    (mkComplexGridArray x0 y0 xf yf (m + 1) nh nv).get_copy =
      mkComplexGridArray x0 y0 xf yf (m + 1) nh nv := by
  rw [ComplexGridArray.get_copy, mk_grid_xlim, mk_grid_ylim,
    mk_grid_x_min_length]
  show mkComplexGridArray (x0 * 1) (y0 * 1) (xf * 1) (yf * 1) (m + 1) nh nv =
    mkComplexGridArray x0 y0 xf yf (m + 1) nh nv
  rw [mul_one, mul_one, mul_one, mul_one]

/-- C8: for every constructible `ComplexGridArray` (at least one point per
line), `get_copy` returns an instance whose `xlim`, `ylim`, number of
horizontal lines, number of vertical lines, and number of points per line
all equal those of the original. -/
theorem c8_get_copy_preserves (x0 y0 xf yf : ℚ) (npts nh nv : ℕ)
    (h1 : 1 ≤ npts) :
    (mkComplexGridArray x0 y0 xf yf npts nh nv).get_copy.get_xlim =
      (mkComplexGridArray x0 y0 xf yf npts nh nv).get_xlim ∧
    (mkComplexGridArray x0 y0 xf yf npts nh nv).get_copy.get_ylim =
      (mkComplexGridArray x0 y0 xf yf npts nh nv).get_ylim ∧
    (mkComplexGridArray x0 y0 xf yf npts nh
          nv).get_copy.get_number_of_horizontal_lines =
      (mkComplexGridArray x0 y0 xf yf npts nh
          nv).get_number_of_horizontal_lines ∧
    (mkComplexGridArray x0 y0 xf yf npts nh
          nv).get_copy.get_number_of_vertical_lines =
      (mkComplexGridArray x0 y0 xf yf npts nh
          nv).get_number_of_vertical_lines ∧
    (mkComplexGridArray x0 y0 xf yf npts nh
          nv).get_copy.get_number_of_points_per_line =
      (mkComplexGridArray x0 y0 xf yf npts nh
          nv).get_number_of_points_per_line := by
  obtain ⟨m, rfl⟩ : ∃ m, npts = m + 1 := ⟨npts - 1, by omega⟩
  rw [mk_grid_get_copy]
  exact ⟨rfl, rfl, rfl, rfl, rfl⟩

theorem c8_get_copy_preserves_witness :
    (1 : ℕ) ≤ 2 ∧
    ((mkComplexGridArray 0 0 1 1 2 1 1).get_copy.get_xlim =
      (mkComplexGridArray 0 0 1 1 2 1 1).get_xlim ∧
    (mkComplexGridArray 0 0 1 1 2 1 1).get_copy.get_ylim =
      (mkComplexGridArray 0 0 1 1 2 1 1).get_ylim ∧
    (mkComplexGridArray 0 0 1 1 2 1 1).get_copy.get_number_of_horizontal_lines =
      (mkComplexGridArray 0 0 1 1 2 1 1).get_number_of_horizontal_lines ∧
    (mkComplexGridArray 0 0 1 1 2 1 1).get_copy.get_number_of_vertical_lines =
      (mkComplexGridArray 0 0 1 1 2 1 1).get_number_of_vertical_lines ∧
    (mkComplexGridArray 0 0 1 1 2 1 1).get_copy.get_number_of_points_per_line =
      (mkComplexGridArray 0 0 1 1 2 1 1).get_number_of_points_per_line) :=
  ⟨by norm_num, c8_get_copy_preserves 0 0 1 1 2 1 1 (by norm_num)⟩

/-! ## `special_functions.py`

The coefficient pipeline of the analytic-continuation engine, over exact
rationals.  The `numpy` matrix `bc` is modelled as a function
`ℕ → ℕ → ℚ` initialised to zero; `bc[i][j] = v` becomes a pointwise update
`updM`.  Python's `i//2` is `i / 2` on `ℕ`, and `range(a, b)` is
`List.range' a (b - a)`. -/

def updM (b : ℕ → ℕ → ℚ) (i j : ℕ) (v : ℚ) : ℕ → ℕ → ℚ :=
  fun i2 j2 => if i2 = i ∧ j2 = j then v else b i2 j2

/-- One iteration of the outer loop of `_binomial_coefficients_table`:
`for j in range(i//2 + 2): bc[i][j] = comb(i, j)` followed by
`for j in range(i//2 + 2, i + 1): bc[i][j] = bc[i][i-j]`. -/
def bcRowStep (i : ℕ) (b : ℕ → ℕ → ℚ) : ℕ → ℕ → ℚ :=
  (List.range' (i / 2 + 2) (i + 1 - (i / 2 + 2))).foldl
    (fun acc j => updM acc i j (acc i (i - j)))
    ((List.range (i / 2 + 2)).foldl
      (fun acc j => updM acc i j ((Nat.choose i j : ℚ))) b)

def binomial_coefficients_table (n : ℕ) : ℕ → ℕ → ℚ :=
  (List.range n).foldl (fun acc i => bcRowStep i acc) fun _ _ => 0

/-- `_eta_coefficients`: `ec[i] = Σ_{j<n} bc[j][i] / 2**(j+1)`, accumulated
by the inner `for j in range(n)` loop (`n = len(bc[0])` is passed
explicitly). -/
def eta_coefficients (bc : ℕ → ℕ → ℚ) (n : ℕ) (i : ℕ) : ℚ :=
  (List.range n).foldl (fun acc j => acc + bc j i / 2 ^ (j + 1)) 0

/-- `_pm_eta_coefficients`: `ec[i]` for even `i`, `-ec[i]` for odd `i`. -/
def pm_eta_coefficients (ec : ℕ → ℚ) (i : ℕ) : ℚ :=
  if i % 2 = 0 then ec i else -ec i

/-- The denominator `1 - 2**(1 - s)` of `_inner_zeta`. -/
noncomputable def zeta_denom (s : ℂ) : ℂ :=
  1 - (2 : ℂ) ^ ((1 : ℂ) - s)

/-- `_inner_zeta(s, summation) = summation/(1.0 - 2.0**(1.0 - s))`. -/
noncomputable def inner_zeta (s summation : ℂ) : ℂ :=
  summation / zeta_denom s

/-- Per-element accumulation of the numba kernel `_eta_call`:
`eta[j] += pm[k]/((k + 1.0)**s[j])` for `k` in `range(len(pm))`. -/
noncomputable def eta_call_numba (pm : ℕ → ℚ) (m : ℕ) (s : ℂ) : ℂ :=
  (List.range m).foldl
    (fun acc k => acc + (pm k : ℂ) / ((k : ℂ) + 1) ^ s) 0

/-- Per-element accumulation of the pure-Python fallback loop in
`EtaFunction.__call__`: `eta += pm[k]/((k + 1.0)**s)`. -/
noncomputable def eta_call_ref (pm : ℕ → ℚ) (m : ℕ) (s : ℂ) : ℂ :=
  (List.range m).foldl
    (fun acc k => acc + (pm k : ℂ) / ((k : ℂ) + 1) ^ s) 0

/-- Per-element form of the numba kernel `_zeta_call`: the `pm`
accumulation followed by `_inner_zeta`. -/
noncomputable def zeta_call_numba (pm : ℕ → ℚ) (m : ℕ) (s : ℂ) : ℂ :=
  inner_zeta s
    ((List.range m).foldl
      (fun acc k => acc + (pm k : ℂ) / ((k : ℂ) + 1) ^ s) 0)

/-- The pure-Python fallback loop in `ZetaFunction.__call__`: state is
`(plusminus, summation)`, each step does `plusminus *= -1` and then
`summation += plusminus*ec[k]/((k + 1.0)**s)`; finally the summation is
divided by `1.0 - 2.0**(1.0 - s)`. -/
noncomputable def zeta_call_ref (ec : ℕ → ℚ) (m : ℕ) (s : ℂ) : ℂ :=
  ((List.range m).foldl
    (fun (st : ℤ × ℂ) k =>
      let p := st.1 * (-1)
      (p, st.2 + (p : ℂ) * (ec k : ℂ) / ((k : ℂ) + 1) ^ s))
    ((-1 : ℤ), (0 : ℂ))).2 / (1 - (2 : ℂ) ^ ((1 : ℂ) - s))

/-- Array-level form of `_zeta_call`: `summation` starts as
`np.zeros(len(s))`, the two nested loops add
`pm[k]/((k + 1.0)**s[j])` into `summation[j]`, and `_inner_zeta` divides
elementwise. -/
noncomputable def zeta_call_array (pm : ℕ → ℚ) (m : ℕ) (s : List ℂ) :
    List ℂ :=
  List.zipWith (fun sj aj => inner_zeta sj aj) s
    ((List.range m).foldl
      (fun acc k =>
        List.zipWith (fun sj aj => aj + (pm k : ℂ) / ((k : ℂ) + 1) ^ sj)
          s acc)
      (List.replicate s.length 0))

/-- The `EtaFunction` engine state: the numba flag and the coefficients
precomputed at construction (`len` records `len(pm)`). -/
structure EtaFunction where
  numba_imported : Bool
  pm : ℕ → ℚ
  len : ℕ

def EtaFunction.init (n : ℕ) (numbaAvailable : Bool) : EtaFunction :=
  { numba_imported := numbaAvailable
    pm := pm_eta_coefficients (eta_coefficients (binomial_coefficients_table n) n)
    len := n }

noncomputable def EtaFunction.call (st : EtaFunction) (s : ℂ) : ℂ :=
  if st.numba_imported then eta_call_numba st.pm st.len s
  else eta_call_ref st.pm st.len s

def EtaFunction.toggle_use_numba (st : EtaFunction) : EtaFunction :=
  { st with numba_imported := !st.numba_imported }

/-- The `ZetaFunction` engine state: numba flag, `_eta_coefficients`,
`_pm_eta_coefficients`. -/
structure ZetaFunction where
  numba_imported : Bool
  ec : ℕ → ℚ
  pm : ℕ → ℚ
  len : ℕ

def ZetaFunction.init (n : ℕ) (numbaAvailable : Bool) : ZetaFunction :=
  { numba_imported := numbaAvailable
    ec := eta_coefficients (binomial_coefficients_table n) n
    pm := pm_eta_coefficients (eta_coefficients (binomial_coefficients_table n) n)
    len := n }

noncomputable def ZetaFunction.call (st : ZetaFunction) (s : ℂ) : ℂ :=
  if st.numba_imported then zeta_call_numba st.pm st.len s
  else zeta_call_ref st.ec st.len s

def ZetaFunction.toggle_use_numba (st : ZetaFunction) : ZetaFunction :=
  { st with numba_imported := !st.numba_imported }

/-! ### Lemmas about the coefficient table -/

theorem foldl_updM_other (i i2 j2 : ℕ) (hne : i2 ≠ i)
    (f : (ℕ → ℕ → ℚ) → ℕ → ℚ) :
    ∀ (l : List ℕ) (b : ℕ → ℕ → ℚ),
      (l.foldl (fun acc j => updM acc i j (f acc j)) b) i2 j2 = b i2 j2 := by
  intro l
  induction l with
  | nil => intro b; rfl
  | cons j t ih =>
    intro b
    rw [List.foldl_cons, ih]
    simp [updM, hne]

theorem foldl_const_writes (i : ℕ) :
    ∀ (l : List ℕ) (b : ℕ → ℕ → ℚ) (i2 j2 : ℕ),
      (l.foldl (fun acc j => updM acc i j ((Nat.choose i j : ℚ))) b) i2 j2 =
        if i2 = i ∧ j2 ∈ l then (Nat.choose i j2 : ℚ) else b i2 j2 := by
  intro l
  induction l with
  | nil => intro b i2 j2; simp
  | cons j t ih =>
    intro b i2 j2
    rw [List.foldl_cons, ih]
    by_cases hi2 : i2 = i
    · subst hi2
      by_cases hjt : j2 ∈ t
      · simp [hjt]
      · by_cases hjj : j2 = j
        · subst hjj
          simp [hjt, updM]
        · simp [hjt, hjj, updM]
    · simp [hi2, updM]

theorem foldl_read_writes (i : ℕ) :
    ∀ (l : List ℕ) (b : ℕ → ℕ → ℚ),
      (∀ j ∈ l, i / 2 + 2 ≤ j) →
      (∀ r, r < i / 2 + 2 → b i r = (Nat.choose i r : ℚ)) →
      ∀ i2 j2,
        (l.foldl (fun acc j => updM acc i j (acc i (i - j))) b) i2 j2 =
          if i2 = i ∧ j2 ∈ l then (Nat.choose i (i - j2) : ℚ)
          else b i2 j2 := by
  intro l
  induction l with
  | nil => intro b _ _ i2 j2; simp
  | cons j t ih =>
    intro b hl hb i2 j2
    have hj : i / 2 + 2 ≤ j := hl j (List.mem_cons_self j t)
    have hij : i - j < i / 2 + 2 := by omega
    have hread : b i (i - j) = (Nat.choose i (i - j) : ℚ) := hb _ hij
    have hb2 : ∀ r, r < i / 2 + 2 →
        updM b i j (b i (i - j)) i r = (Nat.choose i r : ℚ) := by
      intro r hr
      rw [updM]
      have : ¬(i = i ∧ r = j) := by omega
      rw [if_neg this]
      exact hb r hr
    rw [List.foldl_cons,
      ih (updM b i j (b i (i - j)))
        (fun j2 hj2 => hl j2 (List.mem_cons_of_mem j hj2)) hb2]
    by_cases hi2 : i2 = i
    · subst hi2
      by_cases hjt : j2 ∈ t
      · simp [hjt]
      · by_cases hjj : j2 = j
        · subst hjj
          simp [hjt, updM, hread]
        · simp [hjt, hjj, updM]
    · simp [hi2, updM]

theorem bcRowStep_other (i : ℕ) (b : ℕ → ℕ → ℚ) (i2 j2 : ℕ)
    (hne : i2 ≠ i) : bcRowStep i b i2 j2 = b i2 j2 := by
  rw [bcRowStep, foldl_updM_other i i2 j2 hne (fun acc j => acc i (i - j)),
    foldl_updM_other i i2 j2 hne (fun _ j => (Nat.choose i j : ℚ))]

theorem bcRowStep_val (i : ℕ) (b : ℕ → ℕ → ℚ)
    (hrow : ∀ j, b i j = 0) (j : ℕ) :
    bcRowStep i b i j = (Nat.choose i j : ℚ) := by
  rw [bcRowStep]
  have h1 : ∀ i2 j2,
      ((List.range (i / 2 + 2)).foldl
        (fun acc j => updM acc i j ((Nat.choose i j : ℚ))) b) i2 j2 =
        if i2 = i ∧ j2 ∈ List.range (i / 2 + 2) then (Nat.choose i j2 : ℚ)
        else b i2 j2 :=
    foldl_const_writes i (List.range (i / 2 + 2)) b
  have hb1row : ∀ r, r < i / 2 + 2 →
      ((List.range (i / 2 + 2)).foldl
        (fun acc j => updM acc i j ((Nat.choose i j : ℚ))) b) i r =
        (Nat.choose i r : ℚ) := by
    intro r hr
    rw [h1]
    simp [List.mem_range, hr]
  have hmem : ∀ j2 ∈ List.range' (i / 2 + 2) (i + 1 - (i / 2 + 2)),
      i / 2 + 2 ≤ j2 := by
    intro j2 hj2
    rw [List.mem_range'_1] at hj2
    omega
  rw [foldl_read_writes i _ _ hmem hb1row]
  by_cases hjr : j ∈ List.range' (i / 2 + 2) (i + 1 - (i / 2 + 2))
  · have hji : i / 2 + 2 ≤ j ∧ j ≤ i := by
      rw [List.mem_range'_1] at hjr
      omega
    rw [if_pos ⟨rfl, hjr⟩]
    exact_mod_cast Nat.choose_symm hji.2
  · rw [if_neg (by tauto), h1]
    by_cases hj2 : j ∈ List.range (i / 2 + 2)
    · simp [hj2]
    · rw [if_neg (by tauto), hrow j]
      have hij : i < j := by
        rw [List.mem_range] at hj2
        rw [List.mem_range'_1] at hjr
        omega
      rw [Nat.choose_eq_zero_of_lt hij]
      norm_num

theorem bc_table_succ (n : ℕ) :
    binomial_coefficients_table (n + 1) =
      bcRowStep n (binomial_coefficients_table n) := by
  rw [binomial_coefficients_table, binomial_coefficients_table,
    List.range_succ, List.foldl_append, List.foldl_cons, List.foldl_nil]

theorem bc_table_row_ge (n : ℕ) : ∀ i j, n ≤ i →
    binomial_coefficients_table n i j = 0 := by
  induction n with
  | zero => intro i j _; rfl
  | succ n ih =>
    intro i j hn
    rw [bc_table_succ, bcRowStep_other n _ i j (by omega)]
    exact ih i j (by omega)

theorem bc_table_eq_choose (n : ℕ) : ∀ i j, i < n →
    binomial_coefficients_table n i j = (Nat.choose i j : ℚ) := by
  induction n with
  | zero => intro i j h; omega
  | succ n ih =>
    intro i j hi
    rw [bc_table_succ]
    by_cases hin : i = n
    · subst hin
      exact bcRowStep_val i _ (fun j2 => bc_table_row_ge i i j2 le_rfl) j
    · rw [bcRowStep_other n _ i j hin]
      exact ih i j (by omega)

/-! ### Loop accumulations versus closed-form sums -/

theorem foldl_add_eq_sum {M : Type*} [AddCommMonoid M] (f : ℕ → M) :
    ∀ n, (List.range n).foldl (fun a k => a + f k) 0 =
      Finset.sum (Finset.range n) f := by
  intro n
  induction n with
  | zero => simp
  | succ n ih =>
    rw [List.range_succ, List.foldl_append, List.foldl_cons, List.foldl_nil,
      ih, Finset.sum_range_succ]

theorem pm_eta_coefficients_eq (ec : ℕ → ℚ) (k : ℕ) :
    pm_eta_coefficients ec k = (-1 : ℚ) ^ k * ec k := by
  rw [pm_eta_coefficients]
  by_cases hk : k % 2 = 0
  · rw [if_pos hk, (Nat.even_iff.mpr hk).neg_one_pow, one_mul]
  · rw [if_neg hk, (Nat.odd_iff.mpr (by omega)).neg_one_pow]
    ring

theorem eta_call_numba_eq_sum (pm : ℕ → ℚ) (m : ℕ) (s : ℂ) :
    eta_call_numba pm m s =
      Finset.sum (Finset.range m)
        (fun k => (pm k : ℂ) / ((k : ℂ) + 1) ^ s) :=
  foldl_add_eq_sum (fun k => (pm k : ℂ) / ((k : ℂ) + 1) ^ s) m

theorem eta_call_ref_eq_sum (pm : ℕ → ℚ) (m : ℕ) (s : ℂ) :
    eta_call_ref pm m s =
      Finset.sum (Finset.range m)
        (fun k => (pm k : ℂ) / ((k : ℂ) + 1) ^ s) :=
  foldl_add_eq_sum (fun k => (pm k : ℂ) / ((k : ℂ) + 1) ^ s) m

theorem zeta_ref_fold (ec : ℕ → ℚ) (s : ℂ) : ∀ m,
    (List.range m).foldl
      (fun (st : ℤ × ℂ) k =>
        let p := st.1 * (-1)
        (p, st.2 + (p : ℂ) * (ec k : ℂ) / ((k : ℂ) + 1) ^ s))
      ((-1 : ℤ), (0 : ℂ)) =
      ((-1) ^ (m + 1),
        Finset.sum (Finset.range m)
          (fun k => (-1 : ℂ) ^ k * (ec k : ℂ) / ((k : ℂ) + 1) ^ s)) := by
  intro m
  induction m with
  | zero => simp
  | succ m ih =>
    rw [List.range_succ, List.foldl_append, List.foldl_cons, List.foldl_nil,
      ih]
    refine Prod.ext ?_ ?_
    · show (-1 : ℤ) ^ (m + 1) * (-1) = (-1 : ℤ) ^ (m + 1 + 1)
      ring
    · show
        Finset.sum (Finset.range m)
            (fun k => (-1 : ℂ) ^ k * (ec k : ℂ) / ((k : ℂ) + 1) ^ s) +
          (((-1 : ℤ) ^ (m + 1) * (-1) : ℤ) : ℂ) * (ec m : ℂ) /
            ((m : ℂ) + 1) ^ s =
        Finset.sum (Finset.range (m + 1))
          (fun k => (-1 : ℂ) ^ k * (ec k : ℂ) / ((k : ℂ) + 1) ^ s)
      rw [Finset.sum_range_succ]
      congr 1
      push_cast
      ring

theorem zeta_call_ref_eq_sum (ec : ℕ → ℚ) (m : ℕ) (s : ℂ) :
    zeta_call_ref ec m s =
      Finset.sum (Finset.range m)
          (fun k => (-1 : ℂ) ^ k * (ec k : ℂ) / ((k : ℂ) + 1) ^ s) /
        (1 - (2 : ℂ) ^ ((1 : ℂ) - s)) := by
  rw [zeta_call_ref, zeta_ref_fold]

theorem zeta_paths_agree (ec : ℕ → ℚ) (m : ℕ) (s : ℂ) :
    zeta_call_numba (pm_eta_coefficients ec) m s = zeta_call_ref ec m s := by
  rw [zeta_call_ref_eq_sum]
  show inner_zeta s _ = _
  rw [inner_zeta, zeta_denom,
    foldl_add_eq_sum
      (fun k => ((pm_eta_coefficients ec k : ℚ) : ℂ) / ((k : ℂ) + 1) ^ s) m]
  congr 1
  refine Finset.sum_congr rfl fun k _ => ?_
  rw [pm_eta_coefficients_eq]
  push_cast
  ring

theorem zipWith_map_self {α β γ : Type*} (f : α → β → γ) (g : α → β) :
    ∀ l : List α, List.zipWith f l (l.map g) = l.map fun x => f x (g x) := by
  intro l
  induction l with
  | nil => rfl
  | cons a t ih => simp only [List.map_cons, List.zipWith_cons_cons, ih]

theorem zeta_sum_array_eq (pm : ℕ → ℚ) (s : List ℂ) : ∀ m,
    (List.range m).foldl
      (fun acc k =>
        List.zipWith (fun sj aj => aj + (pm k : ℂ) / ((k : ℂ) + 1) ^ sj)
          s acc)
      (List.replicate s.length 0) =
      s.map (fun sj =>
        (List.range m).foldl
          (fun acc k => acc + (pm k : ℂ) / ((k : ℂ) + 1) ^ sj) 0) := by
  intro m
  induction m with
  | zero =>
    simp only [List.range_zero, List.foldl_nil]
    exact (List.map_const' s 0).symm
  | succ m ih =>
    simp only [List.range_succ, List.foldl_append, List.foldl_cons,
      List.foldl_nil]
    rw [ih, zipWith_map_self]

/-- Elementwise decomposition of the array-level zeta evaluation: every
output element depends only on the corresponding input element. -/
theorem zeta_call_array_eq_map (pm : ℕ → ℚ) (m : ℕ) (s : List ℂ) :
    zeta_call_array pm m s = s.map (fun sj => zeta_call_numba pm m sj) := by
  rw [zeta_call_array, zeta_sum_array_eq, zipWith_map_self]
  rfl

/-- C2: the engine's coefficient table is exactly the binomial-coefficient
table, the eta coefficients are the stated binomial transform, the `pm`
coefficients alternate signs, and both evaluation paths compute the stated
eta series and the zeta quotient. -/
theorem c2_engine_coefficients_and_series (n : ℕ) :
    (∀ i j, i < n → j < n →
      binomial_coefficients_table n i j = (Nat.choose i j : ℚ)) ∧
    (∀ i, eta_coefficients (binomial_coefficients_table n) n i =
      Finset.sum (Finset.range n)
        (fun j => binomial_coefficients_table n j i / 2 ^ (j + 1))) ∧
    (∀ i, i % 2 = 0 →
      pm_eta_coefficients
          (eta_coefficients (binomial_coefficients_table n) n) i =
        eta_coefficients (binomial_coefficients_table n) n i) ∧
    (∀ i, i % 2 = 1 →
      pm_eta_coefficients
          (eta_coefficients (binomial_coefficients_table n) n) i =
        -eta_coefficients (binomial_coefficients_table n) n i) ∧
    (∀ (pm : ℕ → ℚ) (s : ℂ),
      eta_call_numba pm n s =
        Finset.sum (Finset.range n)
          (fun k => (pm k : ℂ) / ((k : ℂ) + 1) ^ s) ∧
      eta_call_ref pm n s =
        Finset.sum (Finset.range n)
          (fun k => (pm k : ℂ) / ((k : ℂ) + 1) ^ s)) ∧
    (∀ (pm : ℕ → ℚ) (s : ℂ),
      zeta_call_numba pm n s = eta_call_numba pm n s / zeta_denom s) ∧
    (∀ (ec : ℕ → ℚ) (s : ℂ),
      zeta_call_ref ec n s =
        eta_call_ref (pm_eta_coefficients ec) n s / zeta_denom s) := by
  refine ⟨fun i j hi _ => bc_table_eq_choose n i j hi,
    fun i => foldl_add_eq_sum _ n,
    fun i hi => if_pos hi,
    fun i hi => if_neg (by omega),
    fun pm s => ⟨eta_call_numba_eq_sum pm n s, eta_call_ref_eq_sum pm n s⟩,
    fun pm s => rfl,
    fun ec s => ?_⟩
  rw [← zeta_paths_agree ec n s]
  rfl

theorem c2_engine_coefficients_and_series_witness :
    binomial_coefficients_table 2 1 1 = (Nat.choose 1 1 : ℚ) ∧
    pm_eta_coefficients (eta_coefficients (binomial_coefficients_table 2) 2)
        1 =
      -eta_coefficients (binomial_coefficients_table 2) 2 1 :=
  ⟨(c2_engine_coefficients_and_series 2).1 1 1 (by norm_num) (by norm_num),
    (c2_engine_coefficients_and_series 2).2.2.2.1 1 rfl⟩

/-- C5: the accelerated (numba-kernel) and reference (pure-Python loop)
evaluation paths of both engines agree exactly on every input, from the
same stored coefficient tables, and `toggle_use_numba` flips only the flag,
leaving the stored coefficients untouched (exact agreement is stronger
than the claimed `1e-6` tolerance away from `s = 1`). -/
theorem c5_dual_paths_equivalent :
    (∀ (n : ℕ) (avail : Bool) (s : ℂ),
      (ZetaFunction.init n avail).call s =
        ((ZetaFunction.init n avail).toggle_use_numba).call s) ∧
    (∀ (st : EtaFunction) (s : ℂ),
      st.call s = (st.toggle_use_numba).call s) ∧
    (∀ st : ZetaFunction,
      (st.toggle_use_numba).ec = st.ec ∧
      (st.toggle_use_numba).pm = st.pm ∧
      (st.toggle_use_numba).len = st.len) ∧
    (∀ st : EtaFunction,
      (st.toggle_use_numba).pm = st.pm ∧
      (st.toggle_use_numba).len = st.len) := by
  refine ⟨fun n avail s => ?_, fun st s => ?_, fun st => ⟨rfl, rfl, rfl⟩,
    fun st => ⟨rfl, rfl⟩⟩
  · cases avail
    · simp only [ZetaFunction.call, ZetaFunction.toggle_use_numba,
        ZetaFunction.init, Bool.not_false, if_true, if_false]
      exact (zeta_paths_agree
        (eta_coefficients (binomial_coefficients_table n) n) n s).symm
    · simp only [ZetaFunction.call, ZetaFunction.toggle_use_numba,
        ZetaFunction.init, Bool.not_true, if_true, if_false]
      exact zeta_paths_agree
        (eta_coefficients (binomial_coefficients_table n) n) n s
  · have heq : eta_call_numba st.pm st.len s = eta_call_ref st.pm st.len s :=
      rfl
    cases hb : st.numba_imported <;>
      simp [EtaFunction.call, EtaFunction.toggle_use_numba, hb, heq]

/-- C6: evaluation at a singular point raises no error in the model: the
denominator `1 - 2^(1-s)` is exactly zero at `s = 1`, the array evaluation
is total (output length equals input length), and each output element is a
function of its own input element alone, so the remaining elements of a
batch are still produced. -/
theorem c6_zeta_singularity_nonfatal :
    zeta_denom 1 = 0 ∧
    (∀ (pm : ℕ → ℚ) (m : ℕ) (s : List ℂ),
      (zeta_call_array pm m s).length = s.length ∧
      zeta_call_array pm m s = s.map (fun sj => zeta_call_numba pm m sj)) := by
  constructor
  · rw [zeta_denom, sub_self, Complex.cpow_zero, sub_self]
  · intro pm m s
    exact ⟨by rw [zeta_call_array_eq_map, List.length_map],
      zeta_call_array_eq_map pm m s⟩

/-! ## `functions.py`: sympy expression trees

Sympy `Basic` trees are modelled by `SymExpr`: n-ary flattened `Add`/`Mul`
held in a canonical (sorted) argument order — mirroring sympy's automatic
flattening and canonical ordering of commutative arguments — plus `Pow`,
function applications, symbols and (integer) numeric literals.  `.args` of
a `Pow` is `[base, exponent]`, of a function the single argument, of an
atom the empty list, exactly as in sympy. -/

inductive SymExpr where
  | sym : String → SymExpr
  | num : ℤ → SymExpr
  | add : List SymExpr → SymExpr
  | mul : List SymExpr → SymExpr
  | pow : SymExpr → SymExpr → SymExpr
  | fn : String → SymExpr → SymExpr

mutual

/-- Structural equality (sympy `==` on canonically ordered trees). -/
def beqE : SymExpr → SymExpr → Bool
  | .sym a, .sym b => a == b
  | .num a, .num b => a == b
  | .add l1, .add l2 => beqListE l1 l2
  | .mul l1, .mul l2 => beqListE l1 l2
  | .pow a b, .pow c d => beqE a c && beqE b d
  | .fn n1 a, .fn n2 b => n1 == n2 && beqE a b
  | _, _ => false

def beqListE : List SymExpr → List SymExpr → Bool
  | [], [] => true
  | a :: t, b :: u => beqE a b && beqListE t u
  | _, _ => false

end

def tagOf : SymExpr → ℕ
  | .num _ => 0
  | .sym _ => 1
  | .pow _ _ => 2
  | .mul _ => 3
  | .add _ => 4
  | .fn _ _ => 5

def cmpZ (a b : ℤ) : Ordering :=
  if a < b then .lt else if b < a then .gt else .eq

def cmpChars : List Char → List Char → Ordering
  | [], [] => .eq
  | [], _ :: _ => .lt
  | _ :: _, [] => .gt
  | a :: t, b :: u =>
    if a.toNat < b.toNat then .lt
    else if b.toNat < a.toNat then .gt
    else cmpChars t u

def cmpStr (a b : String) : Ordering := cmpChars a.data b.data

mutual

/-- A total order on trees, fixing the canonical argument order of
commutative `Add`/`Mul` (the model of sympy's `sort_key` ordering). -/
def cmpE : SymExpr → SymExpr → Ordering
  | .sym a, .sym b => cmpStr a b
  | .num a, .num b => cmpZ a b
  | .add l1, .add l2 => cmpListE l1 l2
  | .mul l1, .mul l2 => cmpListE l1 l2
  | .pow a b, .pow c d =>
    match cmpE a c with
    | .eq => cmpE b d
    | o => o
  | .fn n1 a, .fn n2 b =>
    match cmpStr n1 n2 with
    | .eq => cmpE a b
    | o => o
  | a, b => cmpZ (tagOf a) (tagOf b)

def cmpListE : List SymExpr → List SymExpr → Ordering
  | [], [] => .eq
  | [], _ :: _ => .lt
  | _ :: _, [] => .gt
  | a :: t, b :: u =>
    match cmpE a b with
    | .eq => cmpListE t u
    | o => o

end

def insertE (a : SymExpr) : List SymExpr → List SymExpr
  | [] => [a]
  | b :: t =>
    match cmpE a b with
    | .gt => b :: insertE a t
    | _ => a :: b :: t

def sortE (l : List SymExpr) : List SymExpr := l.foldr insertE []

def mulArgsOf : SymExpr → List SymExpr
  | .mul l => l
  | e => [e]

def addArgsOf : SymExpr → List SymExpr
  | .add l => l
  | e => [e]

/-- Smart `Mul` constructor: flatten nested products and sort the factors
(sympy's automatic `Mul` canonicalisation); a product of one factor is the
factor itself. -/
def mkMul (l : List SymExpr) : SymExpr :=
  match sortE ((l.map mulArgsOf).flatten) with
  | [] => .num 1
  | [e] => e
  | l2 => .mul l2

/-- Smart `Add` constructor, analogous to `mkMul`. -/
def mkAdd (l : List SymExpr) : SymExpr :=
  match sortE ((l.map addArgsOf).flatten) with
  | [] => .num 0
  | [e] => e
  | l2 => .add l2

/-- `Pow` constructor that collapses `(b^j)^k` to `b^(j*k)` for integer
literals, as sympy's automatic evaluation does. -/
def powOf (b e : SymExpr) : SymExpr :=
  match b, e with
  | .pow b0 (.num j), .num k => .pow b0 (.num (j * k))
  | _, _ => .pow b e

def cartesianProd : List (List SymExpr) → List (List SymExpr)
  | [] => [[]]
  | l :: ls =>
    ((l.map fun a => (cartesianProd ls).map fun tail => a :: tail)).flatten

/-- Distribute a product over the sums among its factors
(`expand`'s `mul` hint). -/
def distMul (factors : List SymExpr) : SymExpr :=
  mkAdd ((cartesianProd (factors.map addArgsOf)).map mkMul)

/-- `expand`'s `power_base` hint for integer exponents:
`(x*y)**k → x**k * y**k`. -/
def expandPow (b e : SymExpr) : SymExpr :=
  match b, e with
  | .mul l, .num k => mkMul (l.map fun a => powOf a (.num k))
  | _, _ => powOf b e

mutual

/-- Model of `sympy.expand` restricted to the hints exercised by
`functions.py` (deep distribution of products over sums, and power-base
splitting for integer exponents; multinomial expansion of a sum raised to
a power does not occur in the expressions under test and is left alone). -/
def expandE : SymExpr → SymExpr
  | .sym s => .sym s
  | .num q => .num q
  | .add l => mkAdd (expandList l)
  | .mul l => distMul (expandList l)
  | .pow b e => expandPow (expandE b) (expandE e)
  | .fn n a => .fn n (expandE a)

def expandList : List SymExpr → List SymExpr
  | [] => []
  | a :: t => expandE a :: expandList t

end

/-- Sympy `.args`. -/
def argsOf : SymExpr → List SymExpr
  | .sym _ => []
  | .num _ => []
  | .add l => l
  | .mul l => l
  | .pow b e => [b, e]
  | .fn _ a => [a]

def isPow : SymExpr → Bool
  | .pow _ _ => true
  | _ => false

def removeFirstE (a : SymExpr) : List SymExpr → Option (List SymExpr)
  | [] => none
  | b :: t => if beqE a b then some t else (removeFirstE a t).map (b :: ·)

/-- Multiset inclusion of argument lists (used by sympy's
`Mul._has_matcher`: a commutative `Mul` pattern matches any `Mul` whose
factors include the pattern's factors). -/
def msetSubsetE : List SymExpr → List SymExpr → Bool
  | [], _ => true
  | a :: t, l =>
    match removeFirstE a l with
    | none => false
    | some l2 => msetSubsetE t l2

def matcherE (e pat : SymExpr) : Bool :=
  beqE e pat ||
    (match pat, e with
     | .mul pl, .mul el => msetSubsetE pl el
     | _, _ => false)

mutual

/-- Sympy `expr.has(pat)`: the matcher applied to every subexpression. -/
def hasE (pat : SymExpr) : SymExpr → Bool
  | .sym s => matcherE (.sym s) pat
  | .num q => matcherE (.num q) pat
  | .add l => matcherE (.add l) pat || hasListE pat l
  | .mul l => matcherE (.mul l) pat || hasListE pat l
  | .pow b e => matcherE (.pow b e) pat || hasE pat b || hasE pat e
  | .fn n a => matcherE (.fn n a) pat || hasE pat a

def hasListE (pat : SymExpr) : List SymExpr → Bool
  | [] => false
  | a :: t => hasE pat a || hasListE pat t

end

def mulOf (a b : SymExpr) : SymExpr := mkMul [a, b]

/-- `multiplies_var` with explicit recursion fuel (the Python recursion is
unbounded but terminates on any finite tree; every concrete evaluation
below uses a fuel far above the recursion depth actually reached).  Each
call first expands the expression, then scans the top-level args: an
`arg1` containing the main variable together with an `arg2` that is the
candidate symbol (or a power containing it) such that the whole expression
`has` `arg1*arg2` yields `true`; otherwise it recurses into the args that
contain the main variable (other than the bare main variable itself). -/
def multiplies_var_fuel : ℕ → SymExpr → SymExpr → SymExpr → Bool
  | 0, _, _, _ => false
  | f + 1, mainVar, arbVar, e0 =>
    let e := expandE e0
    let as := argsOf e
    (as.any fun a1 =>
      hasE mainVar a1 &&
        as.any fun a2 =>
          (beqE a2 arbVar || (isPow a2 && hasE arbVar a2)) &&
            hasE (mulOf a1 a2) e) ||
    ((as.filter fun a => hasE mainVar a).any fun a =>
      !beqE a mainVar && multiplies_var_fuel f mainVar arbVar a)

def multiplies_var (mainVar arbVar e : SymExpr) : Bool :=
  multiplies_var_fuel 100 mainVar arbVar e

/-! ### Free symbols and the compiled-function state -/

mutual

def collectSyms : SymExpr → List String
  | .sym s => [s]
  | .num _ => []
  | .add l => collectSymsList l
  | .mul l => collectSymsList l
  | .pow b e => collectSyms b ++ collectSyms e
  | .fn _ a => collectSyms a

def collectSymsList : List SymExpr → List String
  | [] => []
  | a :: t => collectSyms a ++ collectSymsList t

end

def dedupFirstAux : List String → List String → List String
  | _, [] => []
  | seen, a :: t =>
    if a ∈ seen then dedupFirstAux seen t
    else a :: dedupFirstAux (a :: seen) t

/-- The expression's free symbols, without duplicates (kept in
first-encountered order, which a Python `set` does not promise — the
theorems below quantify over an arbitrary enumeration of this set). -/
def free_symbols_list (e : SymExpr) : List String :=
  dedupFirstAux [] (collectSyms e)

/-- `list(expr.free_symbols)` in CPython enumerates the set in an
unspecified, hash-dependent order: any duplicate-free enumeration of the
free-symbol set is a faithful outcome. -/
def validSymbolList (sl : List String) (e : SymExpr) : Prop :=
  sl.Perm (free_symbols_list e)

instance (sl : List String) (e : SymExpr) :
    Decidable (validSymbolList sl e) :=
  inferInstanceAs (Decidable (sl.Perm (free_symbols_list e)))

/-- The parameter order as the spec words it (for comparison with the
code's behaviour): the free symbols in first-encountered order, with the
main variable excluded. -/
def specParameterOrder (e : SymExpr) (param : String) : List String :=
  (free_symbols_list e).filter (fun s => s ≠ param)

inductive VariableNotFoundError where
  | mk : VariableNotFoundError
deriving DecidableEq

/-- Model of numpy's function namespace (the `"numpy"` entry of the
`modules` list passed to `lambdify` at construction). -/
def numpyNames : List String :=
  ["sin", "cos", "tan", "arcsin", "arccos", "arctan", "sinh", "cosh",
   "tanh", "exp", "log", "sqrt", "abs"]

/-- The custom entries of the `modules` dictionary built in
`FunctionZtoZ.__init__`. -/
def customFunctionNames : List String :=
  ["zeta", "eta", "erf", "psi", "lambertw"]

/-- The namespace `lambdify` receives in `FunctionZtoZ.__init__`:
`["numpy", {"zeta": ..., "eta": ..., "erf": ..., "psi": ...,
"lambertw": ...}]`. -/
def initModulesNames : List String := numpyNames ++ customFunctionNames

/-- Modelled from the spec: `_reset_samesymbols` calls `lambdify` with no
`modules` argument, so name resolution falls back to sympy's default
(numpy-backed) namespace, which contains none of the construction-time
custom bindings. -/
def defaultLambdifyNames : List String := numpyNames

/-- The `FunctionZtoZ` state: the symbolic tree, the bookkeeping lists and
the compiled evaluator, the latter modelled by the expression it was
compiled from together with the namespace it resolves names against. -/
structure FunctionZtoZ where
  symbolic_func : SymExpr
  parameters : List String
  symbols : List String
  lambda_namespace : List String
  lambda_expr : SymExpr

/-- `FunctionZtoZ.__init__`: `symbolList` models `list(free_symbols)`; if
the main variable is absent the construction fails with
`VariableNotFoundError` and no object is produced; otherwise the main
variable is removed from the list to give `parameters`, and
`symbols = [param] + parameters`. -/
def functionZtoZInit (symbolList : List String) (e : SymExpr)
    (param : String) : Except VariableNotFoundError FunctionZtoZ :=
  if param ∈ symbolList then
    let params := symbolList.erase param
    .ok { symbolic_func := e
          parameters := params
          symbols := param :: params
          lambda_namespace := initModulesNames
          lambda_expr := e }
  else .error .mk

/-- `_reset_samesymbols`: recompile the evaluator from the current tree,
with `lambdify`'s default namespace (no `modules` argument). -/
def resetSamesymbols (st : FunctionZtoZ) : FunctionZtoZ :=
  { st with
    lambda_namespace := defaultLambdifyNames
    lambda_expr := st.symbolic_func }

/-- `derivative`: replace the tree by its derivative with respect to the
main variable (`sympy.diff` is an external call, modelled by an arbitrary
function `d`) and recompile via `_reset_samesymbols`. -/
def FunctionZtoZ.derivative (d : SymExpr → String → SymExpr)
    (st : FunctionZtoZ) : FunctionZtoZ :=
  resetSamesymbols
    { st with symbolic_func := d st.symbolic_func (st.symbols.headD "") }

/-- `antiderivative`: same with `sympy.integrate`. -/
def FunctionZtoZ.antiderivative (ig : SymExpr → String → SymExpr)
    (st : FunctionZtoZ) : FunctionZtoZ :=
  resetSamesymbols
    { st with symbolic_func := ig st.symbolic_func (st.symbols.headD "") }

/-! ### The compiled numeric evaluator -/

/-- The numeric bindings of the names the compiled evaluator can resolve
(numpy's transcendental functions; unknown names evaluate to the zero
function, which no claim relies on). -/
noncomputable def fnTable : String → ℂ → ℂ
  | "sin" => Complex.sin
  | "cos" => Complex.cos
  | "tan" => Complex.tan
  | "sinh" => Complex.sinh
  | "cosh" => Complex.cosh
  | "tanh" => Complex.tanh
  | "exp" => Complex.exp
  | _ => fun _ => 0

mutual

/-- The vectorized evaluator produced by `lambdify`, per element: evaluate
the tree over `ℂ` with an environment binding each symbol (`**` on
complex values is `Complex.cpow`). -/
noncomputable def evalC (env : String → ℂ) : SymExpr → ℂ
  | .sym s => env s
  | .num q => (q : ℂ)
  | .add l => evalSum env l
  | .mul l => evalProd env l
  | .pow b e => evalC env b ^ evalC env e
  | .fn n a => fnTable n (evalC env a)

noncomputable def evalSum (env : String → ℂ) : List SymExpr → ℂ
  | [] => 0
  | a :: t => evalC env a + evalSum env t

noncomputable def evalProd (env : String → ℂ) : List SymExpr → ℂ
  | [] => 1
  | a :: t => evalC env a * evalProd env t

end

/-! ### Concrete expressions from the spec and the doctests -/

/-- `parse_expr("a*sin(w*z)")`. -/
def exprC1 : SymExpr :=
  .mul [.sym "a", .fn "sin" (.mul [.sym "w", .sym "z"])]

/-- `parse_expr("a*sinh(k*x) + c")`. -/
def exprMv1 : SymExpr :=
  mkAdd [mkMul [.sym "a", .fn "sinh" (mkMul [.sym "k", .sym "x"])], .sym "c"]

/-- `parse_expr("w*a**pi*sin(k**10*tan(y*x)*z) + d + e**10*tan(f)")`. -/
def exprMv2 : SymExpr :=
  mkAdd [mkMul [.sym "w", powOf (.sym "a") (.sym "pi"),
      .fn "sin" (mkMul [powOf (.sym "k") (.num 10),
        .fn "tan" (mkMul [.sym "y", .sym "x"]), .sym "z"])],
    .sym "d",
    mkMul [powOf (.sym "e") (.num 10), .fn "tan" (.sym "f")]]

/-- `parse_expr("(a + i**2)*tanh(x*(b**2 + 45.0*c)) + d + exp(-(x/u)**2)")`
(the float literal `45.0` is modelled by the integer `45`; `-(x/u)**2`
parses to `Mul(-1, Pow(Mul(x, Pow(u, -1)), 2))`). -/
def exprMv3 : SymExpr :=
  mkAdd [mkMul [mkAdd [.sym "a", powOf (.sym "i") (.num 2)],
      .fn "tanh" (mkMul [.sym "x",
        mkAdd [powOf (.sym "b") (.num 2), mkMul [.num 45, .sym "c"]]])],
    .sym "d",
    .fn "exp" (mkMul [.num (-1),
      powOf (mkMul [.sym "x", powOf (.sym "u") (.num (-1))]) (.num 2)])]

theorem dedupFirstAux_cons (seen : List String) (a : String)
    (t : List String) :
    dedupFirstAux seen (a :: t) =
      if a ∈ seen then dedupFirstAux seen t
      else a :: dedupFirstAux (a :: seen) t := rfl

theorem dedupFirstAux_nodup : ∀ (l seen : List String),
    (dedupFirstAux seen l).Nodup ∧ ∀ a ∈ dedupFirstAux seen l, a ∉ seen := by
  intro l
  induction l with
  | nil => intro seen; exact ⟨List.nodup_nil, by intro a ha; cases ha⟩
  | cons a t ih =>
    intro seen
    rw [dedupFirstAux_cons]
    by_cases hmem : a ∈ seen
    · rw [if_pos hmem]
      exact ih seen
    · rw [if_neg hmem]
      obtain ⟨hnd, hnot⟩ := ih (a :: seen)
      refine ⟨List.nodup_cons.2 ⟨?_, hnd⟩, ?_⟩
      · intro hcontra
        exact hnot a hcontra (List.mem_cons_self a seen)
      · intro b hb
        rcases List.mem_cons.1 hb with rfl | hb2
        · exact hmem
        · intro hbseen
          exact hnot b hb2 (List.mem_cons_of_mem a hbseen)

theorem free_symbols_list_nodup (e : SymExpr) :
    (free_symbols_list e).Nodup :=
  (dedupFirstAux_nodup (collectSyms e) []).1

/-! ### Claim theorems for `functions.py` -/

/-- C9: `multiplies_var` reproduces the documented worked examples exactly,
including power detection (`a**pi`, `k**10`, `b**2`, `u**(-2)`) and the
term-level recursion, on all three doctest expressions. -/
theorem c9_multiplies_var_worked_examples :
    (multiplies_var (.sym "x") (.sym "a") exprMv1 = true ∧
      multiplies_var (.sym "x") (.sym "k") exprMv1 = true ∧
      multiplies_var (.sym "x") (.sym "b") exprMv1 = false ∧
      multiplies_var (.sym "x") (.sym "c") exprMv1 = false) ∧
    (multiplies_var (.sym "x") (.sym "w") exprMv2 = true ∧
      multiplies_var (.sym "x") (.sym "a") exprMv2 = true ∧
      multiplies_var (.sym "x") (.sym "k") exprMv2 = true ∧
      multiplies_var (.sym "x") (.sym "z") exprMv2 = true ∧
      multiplies_var (.sym "x") (.sym "y") exprMv2 = true ∧
      multiplies_var (.sym "x") (.sym "d") exprMv2 = false ∧
      multiplies_var (.sym "x") (.sym "e") exprMv2 = false ∧
      multiplies_var (.sym "x") (.sym "f") exprMv2 = false) ∧
    (multiplies_var (.sym "x") (.sym "a") exprMv3 = true ∧
      multiplies_var (.sym "x") (.sym "b") exprMv3 = true ∧
      multiplies_var (.sym "x") (.sym "c") exprMv3 = true ∧
      multiplies_var (.sym "x") (.sym "i") exprMv3 = true ∧
      multiplies_var (.sym "x") (.sym "u") exprMv3 = true ∧
      multiplies_var (.sym "x") (.sym "d") exprMv3 = false) := by
  refine ⟨⟨?_, ?_, ?_, ?_⟩, ⟨?_, ?_, ?_, ?_, ?_, ?_, ?_, ?_⟩,
    ⟨?_, ?_, ?_, ?_, ?_, ?_⟩⟩ <;> decide

/-- C7: whenever the designated main variable is missing from the parsed
expression's free symbols, construction fails with
`VariableNotFoundError` and no object is produced; whenever it is present,
construction succeeds, for every enumeration of the free-symbol set. -/
theorem c7_variable_not_found_on_missing_main (e : SymExpr) (param : String)
    (sl : List String) (hsl : validSymbolList sl e) :
    (param ∉ free_symbols_list e →
      functionZtoZInit sl e param = .error .mk) ∧
    (param ∈ free_symbols_list e →
      ∃ st, functionZtoZInit sl e param = .ok st) := by
  constructor
  · intro hnot
    rw [functionZtoZInit, if_neg]
    intro hmem
    exact hnot ((List.Perm.mem_iff hsl).1 hmem)
  · intro hmem
    rw [functionZtoZInit, if_pos ((List.Perm.mem_iff hsl).2 hmem)]
    exact ⟨_, rfl⟩

theorem c7_variable_not_found_on_missing_main_witness :
    validSymbolList ["a", "z"] (SymExpr.mul [.sym "a", .sym "z"]) ∧
    functionZtoZInit ["a", "z"] (SymExpr.mul [.sym "a", .sym "z"]) "q" =
      .error .mk ∧
    ∃ st, functionZtoZInit ["a", "z"] (SymExpr.mul [.sym "a", .sym "z"])
      "z" = .ok st :=
  ⟨by decide,
    (c7_variable_not_found_on_missing_main
      (SymExpr.mul [.sym "a", .sym "z"]) "q" ["a", "z"] (by decide)).1
      (by decide),
    (c7_variable_not_found_on_missing_main
      (SymExpr.mul [.sym "a", .sym "z"]) "z" ["a", "z"] (by decide)).2
      (by decide)⟩

/-- C1 (amended): for every accepted expression and main variable, the
recorded parameter list is a duplicate-free list containing exactly the
free symbols other than the main variable — but only in the unspecified
order in which Python enumerates the free-symbol set, not necessarily in
first-appearance order; and the compiled evaluator of `"a*sin(w*z)"`
returns `0` whenever `z` is bound to `0`, whatever values `a` and `w`
take. -/
theorem c1_parameters_and_evaluation (e : SymExpr) (param : String)
    (sl : List String) (st : FunctionZtoZ)
    (hsl : validSymbolList sl e)
    (hok : functionZtoZInit sl e param = .ok st) :
    st.parameters.Nodup ∧
    (∀ s, s ∈ st.parameters ↔ s ∈ free_symbols_list e ∧ s ≠ param) ∧
    (∀ env : String → ℂ, env "z" = 0 → evalC env exprC1 = 0) := by
  have hnodupfree : (free_symbols_list e).Nodup := free_symbols_list_nodup e
  have hnodup : sl.Nodup := hsl.nodup_iff.2 hnodupfree
  rw [functionZtoZInit] at hok
  by_cases hmem : param ∈ sl
  · rw [if_pos hmem] at hok
    have hst : { symbolic_func := e
                 parameters := sl.erase param
                 symbols := param :: sl.erase param
                 lambda_namespace := initModulesNames
                 lambda_expr := e : FunctionZtoZ } = st := by
      injection hok
    refine ⟨?_, ?_, ?_⟩
    · rw [← hst]
      exact hnodup.erase param
    · intro s
      rw [← hst]
      show s ∈ sl.erase param ↔ _
      rw [hnodup.mem_erase_iff, List.Perm.mem_iff hsl]
      tauto
    · intro env hz
      show env "a" * (fnTable "sin" (env "w" * (env "z" * 1)) * 1) = 0
      rw [hz]
      show env "a" * (Complex.sin (env "w" * (0 * 1)) * 1) = 0
      simp
  · rw [if_neg hmem] at hok
    exact absurd hok (by simp)

theorem c1_parameters_and_evaluation_witness :
    validSymbolList ["a", "w", "z"] exprC1 ∧
    functionZtoZInit ["a", "w", "z"] exprC1 "z" =
      .ok { symbolic_func := exprC1, parameters := ["a", "w"],
            symbols := ["z", "a", "w"],
            lambda_namespace := initModulesNames, lambda_expr := exprC1 } ∧
    (["a", "w"] : List String).Nodup := by
  refine ⟨by decide, rfl, ?_⟩
  have h := (c1_parameters_and_evaluation exprC1 "z" ["a", "w", "z"]
    { symbolic_func := exprC1, parameters := ["a", "w"],
      symbols := ["z", "a", "w"],
      lambda_namespace := initModulesNames, lambda_expr := exprC1 }
    (by decide) rfl).1
  exact h

/-- C1 (counterexample to the claim as stated): `["w", "z", "a"]` is a
valid enumeration of the free-symbol set of `a*sin(w*z)`, and under it the
compiler records `parameters = [w, a]`, not the first-appearance order
`[a, w]` required by the claim. -/
theorem c1_counterexample :
    validSymbolList ["w", "z", "a"] exprC1 ∧
    ((functionZtoZInit ["w", "z", "a"] exprC1 "z").toOption.map
        (fun st => st.parameters)) = some ["w", "a"] ∧
    specParameterOrder exprC1 "z" = ["a", "w"] ∧
    (["w", "a"] : List String) ≠ ["a", "w"] := by
  refine ⟨by decide, by decide, by decide, by decide⟩

/-- C10: `derivative()` and `antiderivative()` (with `sympy.diff` and
`sympy.integrate` modelled as arbitrary external tree transforms) leave
`symbols` and `parameters` unchanged and replace the symbolic tree, but
the evaluator they rebuild resolves names against `lambdify`'s default
namespace: every custom name bound at construction (`zeta`, `eta`, `erf`,
`psi`, `lambertw`) is resolvable in the construction-time namespace and in
neither rebuilt evaluator's namespace. -/
theorem c10_derivative_frame_and_namespace
    (d ig : SymExpr → String → SymExpr) (st : FunctionZtoZ) :
    ((st.derivative d).symbols = st.symbols ∧
      (st.derivative d).parameters = st.parameters ∧
      (st.derivative d).symbolic_func =
        d st.symbolic_func (st.symbols.headD "") ∧
      (st.derivative d).lambda_namespace = defaultLambdifyNames) ∧
    ((st.antiderivative ig).symbols = st.symbols ∧
      (st.antiderivative ig).parameters = st.parameters ∧
      (st.antiderivative ig).symbolic_func =
        ig st.symbolic_func (st.symbols.headD "") ∧
      (st.antiderivative ig).lambda_namespace = defaultLambdifyNames) ∧
    customFunctionNames.all (fun nm => initModulesNames.contains nm) =
      true ∧
    customFunctionNames.all
        (fun nm => !defaultLambdifyNames.contains nm) = true :=
  ⟨⟨rfl, rfl, rfl, rfl⟩, ⟨rfl, rfl, rfl, rfl⟩, by decide, by decide⟩

end ComplexGraph
